import Mathlib

/-!
Verification of the firefly-garden concurrency core.

Shallow embedding of the Go sources:
  * `src/pkg/utils/math.go`        — 2D vector primitives and `WrapAround`
  * `src/internal/core/firefly.go` — agent physics (`applyLanternAttraction`)
  * `src/internal/core` (lantern)  — `Lantern`, `NewLantern`
  * `src/internal/core` (wind)     — `Wind`, `SetDirection`, `CycleDirection`
  * `src/internal/manager/state_aggregator.go` — `updateState` fan-in map
  * `src/internal/manager/firefly_manager.go`  — spawning, commands, registry
  * worker pool (`manager` package) — `processJob`, `worker`, `Submit`

Machine floats are modelled by `ℚ` where the code only moves values around
and compares them, and by `ℝ` where square roots occur (distances, norms).
Go maps are modelled by association lists keyed by `Int`; goroutine
interleavings are modelled by explicit operation sequences applied to a
state record. A Go `select` with several simultaneously ready cases picks
uniformly at random among them; where that race matters (`Submit`) the
choice is an explicit oracle parameter, quantified over in the theorems.
-/

namespace FireflyGarden

/-- 2D vector with the coordinate field names of `utils.Vector2D`,
parametrised by the scalar type (ℚ for bookkeeping, ℝ for physics). -/
structure Vector2D (α : Type) where
  X : α
  Y : α
deriving DecidableEq, Repr

/-- `Vector2D.Add` from `math.go`: componentwise sum. -/
def Vector2D.add {α : Type} [Add α] (v other : Vector2D α) : Vector2D α :=
  ⟨v.X + other.X, v.Y + other.Y⟩

/-- `Vector2D.Sub` from `math.go`: componentwise difference. -/
def Vector2D.sub {α : Type} [Sub α] (v other : Vector2D α) : Vector2D α :=
  ⟨v.X - other.X, v.Y - other.Y⟩

/-- `Vector2D.Mul` from `math.go`: scaling by a scalar. -/
def Vector2D.mul {α : Type} [Mul α] (v : Vector2D α) (scalar : α) : Vector2D α :=
  ⟨v.X * scalar, v.Y * scalar⟩

/-- `WrapAround` from `math.go`: clamp-to-opposite-edge wrapping.
The x coordinate: below 0 jumps to `width`, above `width` jumps to 0,
otherwise unchanged; the y coordinate is treated the same with `height`. -/
def WrapAround (pos : Vector2D ℚ) (width height : ℚ) : Vector2D ℚ :=
  let x := pos.X
  let y := pos.Y
  let x2 := if x < 0 then width else if x > width then 0 else x
  let y2 := if y < 0 then height else if y > height then 0 else y
  ⟨x2, y2⟩

/-! ### State aggregator (`state_aggregator.go`)

The Go `map[int]core.FireflyState` is modelled by an association list keyed
by `Int`; the fan-in loop applies `updateState` to each received emission in
arrival order. -/

/-- `core.FireflyState` from `firefly.go`: the immutable per-tick emission. -/
structure FireflyState where
  ID : Int
  Position : Vector2D ℚ
  Brightness : ℚ
  IsAlive : Bool
deriving DecidableEq, Repr

/-- First value bound to key `k`, modelling Go map indexing `m[k]`. -/
def lookupKey {α : Type} : List (Int × α) → Int → Option α
  | [], _ => none
  | (k2, v) :: rest, k => if k = k2 then some v else lookupKey rest k

/-- Key-membership test, modelling Go's `_, ok := m[k]`. -/
def containsKey {α : Type} (m : List (Int × α)) (k : Int) : Bool :=
  (lookupKey m k).isSome

/-- Insert-or-replace, modelling Go map assignment `m[k] = v`. -/
def upsertKey {α : Type} : List (Int × α) → Int → α → List (Int × α)
  | [], k, v => [(k, v)]
  | (k2, v2) :: rest, k, v =>
    if k = k2 then (k, v) :: rest else (k2, v2) :: upsertKey rest k v

/-- Removal of a key's binding, modelling Go's `delete(m, k)` (Go maps never
hold duplicate keys, so removing every pair with that key is the same map). -/
def eraseKey {α : Type} (m : List (Int × α)) (k : Int) : List (Int × α) :=
  m.filter (fun p => decide (p.1 ≠ k))

/-- The key column of the map. -/
def keysOf {α : Type} (m : List (Int × α)) : List Int :=
  m.map Prod.fst

/-- `StateAggregator.updateState`: alive emissions upsert by id, non-alive
emissions delete by id. -/
def updateState (m : List (Int × FireflyState)) (state : FireflyState) :
    List (Int × FireflyState) :=
  if state.IsAlive then upsertKey m state.ID state else eraseKey m state.ID

/-- The aggregate loop's effect on the map after consuming a finite emission
sequence in arrival order, starting from map `m`. -/
def processEmissions (m : List (Int × FireflyState)) (es : List FireflyState) :
    List (Int × FireflyState) :=
  es.foldl updateState m

/-- Alive flag of the last emission in `es` carrying the given id, if any
emission for that id occurs at all. -/
def lastAliveFor : List FireflyState → Int → Option Bool
  | [], _ => none
  | e :: rest, id =>
    match lastAliveFor rest id with
    | some b => some b
    | none => if e.ID = id then some e.IsAlive else none

/-! ### Wind (`core` package)

`Wind` owns a direction, a scalar strength, and the force vector derived
from them via `directionToAngle`. -/

/-- `config.MaxFireflies`. -/
def MaxFireflies : Nat := 100

/-- `config.WindForce`. -/
noncomputable def WindForce : ℝ := 0.8

/-- `config.LanternRadius`. -/
noncomputable def LanternRadius : ℝ := 120.0

/-- `config.LanternInfluenceForce`. -/
noncomputable def LanternInfluenceForce : ℝ := 0.5

/-- `core.WindDirection`: the nine symbolic wind directions. -/
inductive WindDirection where
  | WindNone
  | WindNorth
  | WindSouth
  | WindEast
  | WindWest
  | WindNorthEast
  | WindNorthWest
  | WindSouthEast
  | WindSouthWest
deriving DecidableEq, Repr

/-- `core.Wind`: direction, derived force vector, scalar strength. -/
structure Wind where
  direction : WindDirection
  force : Vector2D ℝ
  strength : ℝ

/-- `Wind.directionToAngle`: the direction→angle mapping (radians, screen
coordinates with y growing downward, so North is −π/2). -/
noncomputable def directionToAngle (direction : WindDirection) : ℝ :=
  match direction with
  | .WindNorth => -Real.pi / 2
  | .WindSouth => Real.pi / 2
  | .WindEast => 0
  | .WindWest => Real.pi
  | .WindNorthEast => -Real.pi / 4
  | .WindNorthWest => -3 * Real.pi / 4
  | .WindSouthEast => Real.pi / 4
  | .WindSouthWest => 3 * Real.pi / 4
  | .WindNone => 0

/-- `Wind.updateForce`: recompute the force vector from direction and
strength. -/
noncomputable def updateForce (w : Wind) : Wind :=
  let angle := directionToAngle w.direction
  { w with force := ⟨Real.cos angle * w.strength, Real.sin angle * w.strength⟩ }

/-- `Wind.SetDirection`: set the direction, then refresh the force. -/
noncomputable def SetDirection (w : Wind) (dir : WindDirection) : Wind :=
  updateForce { w with direction := dir }

/-- The successor computation inside `Wind.CycleDirection`: linear search of
the fixed clockwise table for the current direction (index −1 when absent,
as in the Go loop), then advance by one modulo 8. -/
def nextCycleDirection (current : WindDirection) : WindDirection :=
  let directions : List WindDirection :=
    [.WindNorth, .WindNorthEast, .WindEast, .WindSouthEast,
     .WindSouth, .WindSouthWest, .WindWest, .WindNorthWest]
  let currentIndex : Int :=
    match directions.findIdx? (fun dir => dir == current) with
    | some i => (i : Int)
    | none => -1
  let nextIndex := ((currentIndex + 1) % 8).toNat
  directions.getD nextIndex .WindNorth

/-- `Wind.CycleDirection`: advance to the next direction in the fixed
clockwise order and refresh the force via `SetDirection`. -/
noncomputable def CycleDirection (w : Wind) : Wind :=
  SetDirection w (nextCycleDirection w.direction)

/-! ### Firefly manager (`firefly_manager.go`)

The registry `map[int]*core.Firefly` is modelled as an association list in
insertion order (Go map iteration order is irrelevant to the claims). Only
the fields of `core.Firefly` that the manager reads or writes are carried;
the kinematic fields live in the physics model below. The wind force vector
(a shared pointer derived from the wind direction, see the Wind section) is
represented by the direction it is derived from. -/

/-- Manager-side view of a registered `core.Firefly`: its id, spawn
position, and current attraction-point reference. -/
structure ManagedFirefly where
  id : Int
  position : Vector2D ℚ
  attractionPoint : Option (Vector2D ℚ)
deriving DecidableEq, Repr

/-- `manager.FireflyManager`: agent registry, id counter, shared attraction
point, wind direction, and the aggregator's state map. -/
structure ManagerState where
  fireflies : List (Int × ManagedFirefly)
  nextID : Int
  attractionPt : Option (Vector2D ℚ)
  windDir : WindDirection
  aggStates : List (Int × FireflyState)
deriving Repr

/-- `NewFireflyManager`: empty registry, id counter at 1, no attraction
point, east wind (`NewWind`), empty aggregator map. -/
def initManager : ManagerState :=
  { fireflies := []
    nextID := 1
    attractionPt := none
    windDir := .WindEast
    aggStates := [] }

/-- `FireflyManager.spawnFirefly`: assign `nextID`, increment the counter,
register the new agent (wired to the current attraction point, as the code
does after the registry insert), and launch its task. There is no
population-cap check on this path. -/
def spawnFirefly (fm : ManagerState) (x y : ℚ) : ManagerState :=
  let id := fm.nextID
  let firefly : ManagedFirefly :=
    { id := id, position := ⟨x, y⟩, attractionPoint := fm.attractionPt }
  { fm with
      fireflies := fm.fireflies ++ [(id, firefly)]
      nextID := fm.nextID + 1 }

/-- `FireflyManager.SpawnBurst`: under the registry lock, repeatedly check
`len(fireflies) ≥ MaxFireflies` (returning early when at capacity) and
otherwise spawn one agent at the burst centre plus that iteration's random
jitter. The `jitter` list supplies the per-iteration random offsets, so its
length is the requested `count`. -/
def SpawnBurst (fm : ManagerState) (x y : ℚ) : List (ℚ × ℚ) → ManagerState
  | [] => fm
  | (dx, dy) :: rest =>
    if MaxFireflies ≤ fm.fireflies.length then fm
    else
      let id := fm.nextID
      let firefly : ManagedFirefly :=
        { id := id, position := ⟨x + dx, y + dy⟩, attractionPoint := fm.attractionPt }
      SpawnBurst
        { fm with
            fireflies := fm.fireflies ++ [(id, firefly)]
            nextID := fm.nextID + 1 }
        x y rest

/-- `FireflyManager.setAttractionPoint`: store the shared point, then update
every currently registered agent's attraction reference. -/
def setAttractionPoint (fm : ManagerState) (point : Vector2D ℚ) : ManagerState :=
  { fm with
      attractionPt := some point
      fireflies := fm.fireflies.map
        (fun p => (p.1, { p.2 with attractionPoint := some point })) }

/-- `FireflyManager.clearAttractionPoint`: clear the shared point, then
clear every currently registered agent's attraction reference. -/
def clearAttractionPoint (fm : ManagerState) : ManagerState :=
  { fm with
      attractionPt := none
      fireflies := fm.fireflies.map
        (fun p => (p.1, { p.2 with attractionPoint := none })) }

/-- `manager.Command`: the tagged union consumed by the command loop (the
payload-carrying cases bundle their `Data` well-typed; the Go code ignores
commands whose `Data` has the wrong dynamic type). -/
inductive Command where
  | CommandSpawnFirefly (pos : Vector2D ℚ)
  | CommandSetAttraction (pos : Vector2D ℚ)
  | CommandClearAttraction
  | CommandUpdateWind
deriving DecidableEq, Repr

/-- `FireflyManager.processCommand`: dispatch one dequeued command. -/
def processCommand (fm : ManagerState) (cmd : Command) : ManagerState :=
  match cmd with
  | .CommandSpawnFirefly pos => spawnFirefly fm pos.X pos.Y
  | .CommandSetAttraction pos => setAttractionPoint fm pos
  | .CommandClearAttraction => clearAttractionPoint fm
  | .CommandUpdateWind => { fm with windDir := nextCycleDirection fm.windDir }

/-- The command loop's effect after consuming a queue of commands in FIFO
order. -/
def processCommands (fm : ManagerState) (cmds : List Command) : ManagerState :=
  cmds.foldl processCommand fm

/-- `FireflyManager.GetFireflyCount`: delegates to the aggregator's count of
live entries (`len(states)`). -/
def GetFireflyCount (fm : ManagerState) : Nat :=
  fm.aggStates.length

/-- One observable step of the running system: a `spawnFirefly` call (initial
population, an auto-spawner spawn, or a spawn command), a `SpawnBurst` call,
a processed attraction/wind command, or the aggregator consuming one agent
emission (only registered agents ever emit). -/
inductive ManagerOp where
  | opSpawn (x y : ℚ)
  | opBurst (x y : ℚ) (jitter : List (ℚ × ℚ))
  | opSetAttraction (pos : Vector2D ℚ)
  | opClearAttraction
  | opCycleWind
  | opEmit (state : FireflyState)
deriving DecidableEq, Repr

/-- Apply one system step to the manager state. -/
def applyOp (fm : ManagerState) : ManagerOp → ManagerState
  | .opSpawn x y => spawnFirefly fm x y
  | .opBurst x y jitter => SpawnBurst fm x y jitter
  | .opSetAttraction pos => setAttractionPoint fm pos
  | .opClearAttraction => clearAttractionPoint fm
  | .opCycleWind => { fm with windDir := nextCycleDirection fm.windDir }
  | .opEmit state =>
    if containsKey fm.fireflies state.ID then
      { fm with aggStates := updateState fm.aggStates state }
    else fm

/-- A run: apply a finite sequence of system steps in order. -/
def applyOps (fm : ManagerState) (ops : List ManagerOp) : ManagerState :=
  ops.foldl applyOp fm

/-! ### Worker pool (`manager` package)

A task's execution either returns a value (possibly the nil interface) or
panics; `processJob` observes that outcome. The bounded job queue is a list
with an explicit capacity, and `select` races are resolved in source order
(cancellation first, then the send, then the non-blocking default). -/

/-- Outcome of running a submitted task: a normal return (possibly nil) or a
panic with some payload. -/
inductive TaskOutcome where
  | returns (v : Option Int)
  | panics (payload : Int)
deriving DecidableEq, Repr

/-- `manager.Job`. The `Task` field carries the outcome its closure produces
when executed. -/
structure Job where
  ID : Int
  Task : TaskOutcome
deriving DecidableEq, Repr

/-- `manager.Result`: job id, output (nil when the task never returned), and
error (the Go code only ever stores nil here). -/
structure JobResult where
  JobID : Int
  Output : Option Int
  Error : Option Int
deriving DecidableEq, Repr

/-- `WorkerPool.processJob`: run the task inside a recover barrier. On a
normal return the output is stored; on a panic the recover handler fires,
`result.Output` keeps its zero value and `result.Error` is set to nil. -/
def processJob (job : Job) : JobResult :=
  match job.Task with
  | .returns v => { JobID := job.ID, Output := v, Error := none }
  | .panics _ => { JobID := job.ID, Output := none, Error := none }

/-- `WorkerPool.worker`'s job-consumption loop over the jobs it dequeues:
process each job in order and push its result onto the bounded result queue
non-blockingly (results are dropped when the queue is at capacity). -/
def worker (resultCap : Nat) (results : List JobResult) : List Job → List JobResult
  | [] => results
  | job :: rest =>
    let result := processJob job
    let results2 :=
      if results.length < resultCap then results ++ [result] else results
    worker resultCap results2 rest

/-- Submission-relevant state of a `WorkerPool`: whether its context has
been cancelled, the buffered job queue, and the queue's capacity. -/
structure PoolState where
  done : Bool
  jobs : List Job
  jobCap : Nat
deriving DecidableEq, Repr

/-- `WorkerPool.Submit`: a non-blocking select over the cancellation case
(`<-ctx.Done()`), the buffered send (`jobsCh <- job`), and a default case.
The cancellation case is ready when the context is cancelled; the send is
ready when the queue has room. Go picks uniformly at random among the ready
cases, so when both are ready the `pick` oracle resolves the race (`true` =
the cancellation case wins); with exactly one ready case that case runs, and
with none the default returns false. The model covers the pool before `Stop`
closes the job queue (a send racing the close would panic). -/
def Submit (wp : PoolState) (job : Job) (pick : Bool) : Bool × PoolState :=
  if wp.done = true ∧ wp.jobs.length < wp.jobCap then
    if pick then (false, wp) else (true, { wp with jobs := wp.jobs ++ [job] })
  else if wp.done = true then (false, wp)
  else if wp.jobs.length < wp.jobCap then
    (true, { wp with jobs := wp.jobs ++ [job] })
  else (false, wp)

/-! ### Agent physics (`firefly.go`, over ℝ)

Only the lantern-attraction force is claim-relevant; the agent is carried as
its position and velocity. -/

/-- `Vector2D.Magnitude` from `math.go`. -/
noncomputable def Magnitude (v : Vector2D ℝ) : ℝ :=
  Real.sqrt (v.X * v.X + v.Y * v.Y)

open Classical in
/-- `Vector2D.Normalize` from `math.go`: zero vector for zero magnitude,
otherwise componentwise division by the magnitude. -/
noncomputable def Normalize (v : Vector2D ℝ) : Vector2D ℝ :=
  let mag := Magnitude v
  if mag = 0 then ⟨0, 0⟩ else ⟨v.X / mag, v.Y / mag⟩

/-- `utils.Distance` from `math.go`. -/
noncomputable def Distance (v1 v2 : Vector2D ℝ) : ℝ :=
  let dx := v1.X - v2.X
  let dy := v1.Y - v2.Y
  Real.sqrt (dx * dx + dy * dy)

/-- `core.Lantern`: fixed position and influence radius, plus pulse state. -/
structure Lantern where
  Position : Vector2D ℝ
  Radius : ℝ
  Intensity : ℝ
  PulsePhase : ℝ

/-- `core.NewLantern`. -/
noncomputable def NewLantern (x y : ℝ) : Lantern :=
  { Position := ⟨x, y⟩, Radius := LanternRadius, Intensity := 1.0, PulsePhase := 0.0 }

/-- Position and velocity of a running `core.Firefly`. -/
structure FireflyCore where
  position : Vector2D ℝ
  velocity : Vector2D ℝ

open Classical in
/-- The per-lantern body of `Firefly.applyLanternAttraction`: the velocity
increment contributed by one lantern. Inside the open annulus
`1 < distance < Radius` it is the unit vector toward the lantern scaled by
`LanternInfluenceForce × (Radius − distance)/Radius`; elsewhere it is zero. -/
noncomputable def lanternForce (pos : Vector2D ℝ) (lantern : Lantern) : Vector2D ℝ :=
  let distance := Distance pos lantern.Position
  if distance < lantern.Radius ∧ distance > 1 then
    let direction := Normalize (lantern.Position.sub pos)
    let strength := (lantern.Radius - distance) / lantern.Radius
    direction.mul (LanternInfluenceForce * strength)
  else ⟨0, 0⟩

/-- `Firefly.applyLanternAttraction`: accumulate each nearby lantern's force
into the velocity (the loop reads only the position, which does not change
during the loop, so it is a fold of the per-lantern increments). -/
noncomputable def applyLanternAttraction (f : FireflyCore) (lanterns : List Lantern) :
    FireflyCore :=
  { f with
      velocity := lanterns.foldl (fun v lantern => v.add (lanternForce f.position lantern))
        f.velocity }

/-- C5. `WrapAround(pos, width, height)` sends `pos.X > width` to `x = 0`
(for nonnegative bounds), `pos.X < 0` to `x = width`, and keeps
`0 ≤ pos.X ≤ width` unchanged; symmetrically for the y coordinate. -/
theorem wrapAround_spec (pos : Vector2D ℚ) (width height : ℚ)
    (hw : 0 ≤ width) (hh : 0 ≤ height) :
    (pos.X > width → (WrapAround pos width height).X = 0)
    ∧ (pos.X < 0 → (WrapAround pos width height).X = width)
    ∧ (0 ≤ pos.X → pos.X ≤ width → (WrapAround pos width height).X = pos.X)
    ∧ (pos.Y > height → (WrapAround pos width height).Y = 0)
    ∧ (pos.Y < 0 → (WrapAround pos width height).Y = height)
    ∧ (0 ≤ pos.Y → pos.Y ≤ height → (WrapAround pos width height).Y = pos.Y) := by
  refine ⟨?_, ?_, ?_, ?_, ?_, ?_⟩ <;> intro h
  · have hx : ¬ pos.X < 0 := not_lt.mpr (le_trans hw (le_of_lt h))
    simp [WrapAround, hx, h]
  · simp [WrapAround, h]
  · intro h2
    have hx : ¬ pos.X < 0 := not_lt.mpr h
    have hx2 : ¬ pos.X > width := not_lt.mpr h2
    simp [WrapAround, hx, hx2]
  · have hy : ¬ pos.Y < 0 := not_lt.mpr (le_trans hh (le_of_lt h))
    simp [WrapAround, hy, h]
  · simp [WrapAround, h]
  · intro h2
    have hy : ¬ pos.Y < 0 := not_lt.mpr h
    have hy2 : ¬ pos.Y > height := not_lt.mpr h2
    simp [WrapAround, hy, hy2]

/-- Witness for C5: a point past the right edge and above the top edge
wraps to `(0, 768)` on the `1024 × 768` screen. -/
theorem wrapAround_spec_witness :
    (WrapAround ⟨1030, -5⟩ 1024 768).X = 0
    ∧ (WrapAround ⟨1030, -5⟩ 1024 768).Y = 768 :=
  ⟨(wrapAround_spec ⟨1030, -5⟩ 1024 768 (by norm_num) (by norm_num)).1 (by norm_num),
   (wrapAround_spec ⟨1030, -5⟩ 1024 768 (by norm_num) (by norm_num)).2.2.2.2.1 (by norm_num)⟩

/-! ### Aggregator map lemmas -/

theorem lookupKey_upsertKey {α : Type} (m : List (Int × α)) (k k2 : Int) (v : α) :
    lookupKey (upsertKey m k v) k2 = if k2 = k then some v else lookupKey m k2 := by
  induction m with
  | nil => simp [upsertKey, lookupKey]
  | cons hd tl ih =>
    obtain ⟨hk, hv⟩ := hd
    by_cases h : k = hk
    · subst h
      by_cases h2 : k2 = k <;> simp [upsertKey, lookupKey, h2]
    · by_cases h2 : k2 = hk
      · subst h2
        have : ¬ k2 = k := fun he => h (he ▸ rfl)
        simp [upsertKey, lookupKey, h, this]
      · simp [upsertKey, lookupKey, h, h2, ih]

theorem lookupKey_eraseKey {α : Type} (m : List (Int × α)) (k k2 : Int) :
    lookupKey (eraseKey m k) k2 = if k2 = k then none else lookupKey m k2 := by
  induction m with
  | nil => simp [eraseKey, lookupKey]
  | cons hd tl ih =>
    obtain ⟨hk, hv⟩ := hd
    by_cases h : hk = k
    · subst h
      by_cases h2 : k2 = hk <;> simp [eraseKey, lookupKey, h2, ih] at *
      · simpa [eraseKey] using ih
      · simpa [eraseKey, h2] using ih
    · by_cases h2 : k2 = hk
      · subst h2
        have : ¬ k2 = k := h
        simp [eraseKey, lookupKey, h, this]
      · simp [eraseKey, lookupKey, h, h2] at *
        simpa [eraseKey] using ih

theorem containsKey_upsertKey {α : Type} (m : List (Int × α)) (k k2 : Int) (v : α) :
    containsKey (upsertKey m k v) k2 = if k2 = k then true else containsKey m k2 := by
  by_cases h : k2 = k <;> simp [containsKey, lookupKey_upsertKey, h]

theorem containsKey_eraseKey {α : Type} (m : List (Int × α)) (k k2 : Int) :
    containsKey (eraseKey m k) k2 = if k2 = k then false else containsKey m k2 := by
  by_cases h : k2 = k <;> simp [containsKey, lookupKey_eraseKey, h]

theorem eraseKey_not_contained {α : Type} (m : List (Int × α)) (k : Int)
    (h : containsKey m k = false) : eraseKey m k = m := by
  induction m with
  | nil => rfl
  | cons hd tl ih =>
    obtain ⟨hk, hv⟩ := hd
    by_cases h2 : k = hk
    · subst h2
      simp [containsKey, lookupKey] at h
    · have htl : containsKey tl k = false := by
        simpa [containsKey, lookupKey, h2] using h
      have : hk ≠ k := fun he => h2 (he ▸ rfl)
      simp [eraseKey, this] at *
      simpa [eraseKey] using ih htl

theorem containsKey_updateState (m : List (Int × FireflyState)) (e : FireflyState)
    (id : Int) :
    containsKey (updateState m e) id =
      if e.ID = id then e.IsAlive else containsKey m id := by
  unfold updateState
  cases ha : e.IsAlive
  · rw [if_neg (by simp [ha])]
    rw [containsKey_eraseKey]
    by_cases h : e.ID = id
    · simp [h, ha]
    · have : ¬ id = e.ID := fun he => h (he ▸ rfl)
      simp [h, this]
  · rw [if_pos rfl, containsKey_upsertKey]
    by_cases h : e.ID = id
    · simp [h]
    · have : ¬ id = e.ID := fun he => h (he ▸ rfl)
      simp [h, this]

theorem containsKey_processEmissions (es : List FireflyState) :
    ∀ (m : List (Int × FireflyState)) (id : Int),
      containsKey (processEmissions m es) id =
        (match lastAliveFor es id with
         | some b => b
         | none => containsKey m id) := by
  induction es with
  | nil => intro m id; rfl
  | cons e rest ih =>
    intro m id
    have step : processEmissions m (e :: rest) = processEmissions (updateState m e) rest := rfl
    rw [step, ih]
    cases hrest : lastAliveFor rest id
    · simp [lastAliveFor, hrest, containsKey_updateState]
      by_cases h : e.ID = id <;> simp [h]
    · simp [lastAliveFor, hrest]

/-- C1. After the aggregator consumes any finite emission sequence from its
initial empty map, an id is present if and only if the last emission with
that id had `IsAlive = true`; and a non-alive emission for an absent id
leaves the map unchanged. -/
theorem aggregator_map_invariant :
    (∀ (es : List FireflyState) (id : Int),
        containsKey (processEmissions [] es) id = true ↔ lastAliveFor es id = some true)
    ∧ (∀ (m : List (Int × FireflyState)) (state : FireflyState),
        state.IsAlive = false → containsKey m state.ID = false →
        updateState m state = m) := by
  constructor
  · intro es id
    rw [containsKey_processEmissions]
    cases h : lastAliveFor es id with
    | none => simp [containsKey, lookupKey]
    | some b => cases b <;> simp
  · intro m state ha hc
    unfold updateState
    rw [if_neg (by simp [ha])]
    exact eraseKey_not_contained m state.ID hc

/-- Witness for C1: deleting id 1 from a map holding only id 2 is a no-op. -/
theorem aggregator_map_invariant_witness :
    updateState [((2 : Int), ⟨2, ⟨0, 0⟩, 0, true⟩)] ⟨1, ⟨0, 0⟩, 0, false⟩
      = [((2 : Int), ⟨2, ⟨0, 0⟩, 0, true⟩)] :=
  aggregator_map_invariant.2 _ _ rfl (by decide)

/-! ### Manager registry lemmas -/

theorem containsKey_iff_mem {α : Type} (m : List (Int × α)) (k : Int) :
    containsKey m k = true ↔ k ∈ keysOf m := by
  induction m with
  | nil => simp [containsKey, lookupKey, keysOf]
  | cons hd tl ih =>
    obtain ⟨hk, hv⟩ := hd
    by_cases h : k = hk
    · simp [containsKey, lookupKey, keysOf, h]
    · have hcons : keysOf ((hk, hv) :: tl) = hk :: keysOf tl := rfl
      have hstep : containsKey ((hk, hv) :: tl) k = containsKey tl k := by
        simp [containsKey, lookupKey, h]
      rw [hcons, hstep, ih, List.mem_cons]
      constructor
      · exact Or.inr
      · rintro (h2 | h2)
        · exact absurd h2 h
        · exact h2

theorem containsKey_append {α : Type} (l l2 : List (Int × α)) (k : Int) :
    containsKey (l ++ l2) k = (containsKey l k || containsKey l2 k) := by
  induction l with
  | nil => simp [containsKey, lookupKey]
  | cons hd tl ih =>
    obtain ⟨hk, hv⟩ := hd
    by_cases h : k = hk <;> simp [containsKey, lookupKey, h] at *
    exact ih

theorem keysOf_mapValues {α β : Type} (l : List (Int × α)) (g : α → β) :
    keysOf (l.map (fun p => (p.1, g p.2))) = keysOf l := by
  simp [keysOf, List.map_map]

theorem mem_keysOf_upsertKey {α : Type} (m : List (Int × α)) (k j : Int) (v : α) :
    j ∈ keysOf (upsertKey m k v) ↔ j = k ∨ j ∈ keysOf m := by
  rw [← containsKey_iff_mem, containsKey_upsertKey]
  by_cases h : j = k <;> simp [h, containsKey_iff_mem]

theorem nodup_keysOf_upsertKey {α : Type} (m : List (Int × α)) (k : Int) (v : α)
    (h : (keysOf m).Nodup) : (keysOf (upsertKey m k v)).Nodup := by
  induction m with
  | nil => simp [upsertKey, keysOf]
  | cons hd tl ih =>
    obtain ⟨hk, hv⟩ := hd
    have hcons : keysOf ((hk, hv) :: tl) = hk :: keysOf tl := rfl
    rw [hcons, List.nodup_cons] at h
    by_cases h2 : k = hk
    · subst h2
      have heq : keysOf (upsertKey ((k, hv) :: tl) k v) = k :: keysOf tl := by
        simp [upsertKey, keysOf]
      rw [heq, List.nodup_cons]
      exact h
    · have hrec := ih h.2
      have heq : keysOf (upsertKey ((hk, hv) :: tl) k v) = hk :: keysOf (upsertKey tl k v) := by
        simp [upsertKey, h2, keysOf]
      rw [heq, List.nodup_cons]
      refine ⟨?_, hrec⟩
      intro hmem
      rcases (mem_keysOf_upsertKey tl k hk v).1 hmem with h3 | h3
      · exact h2 (h3 ▸ rfl)
      · exact h.1 h3

theorem nodup_keysOf_eraseKey {α : Type} (m : List (Int × α)) (k : Int)
    (h : (keysOf m).Nodup) : (keysOf (eraseKey m k)).Nodup := by
  have hsub : List.Sublist (eraseKey m k) m := List.filter_sublist m
  exact (hsub.map Prod.fst).nodup h

theorem nodup_keysOf_updateState (m : List (Int × FireflyState)) (s : FireflyState)
    (h : (keysOf m).Nodup) : (keysOf (updateState m s)).Nodup := by
  unfold updateState
  split
  · exact nodup_keysOf_upsertKey m s.ID s h
  · exact nodup_keysOf_eraseKey m s.ID h

/-- The four-part registry/aggregator invariant maintained by every manager
operation: registry keys strictly increasing in spawn order, all below the
id counter, aggregator keys drawn from the registry, aggregator keys
duplicate-free. -/
def managerInv (fm : ManagerState) : Prop :=
  List.Pairwise (· < ·) (keysOf fm.fireflies)
  ∧ (∀ k ∈ keysOf fm.fireflies, k < fm.nextID)
  ∧ (∀ k : Int, containsKey fm.aggStates k = true → containsKey fm.fireflies k = true)
  ∧ (keysOf fm.aggStates).Nodup

theorem managerInv_init : managerInv initManager := by
  refine ⟨?_, ?_, ?_, ?_⟩ <;> simp [initManager, keysOf, containsKey, lookupKey]

theorem keysOf_spawnFirefly (fm : ManagerState) (x y : ℚ) :
    keysOf (spawnFirefly fm x y).fireflies = keysOf fm.fireflies ++ [fm.nextID] := by
  simp [spawnFirefly, keysOf]

theorem managerInv_spawnFirefly (fm : ManagerState) (x y : ℚ)
    (h : managerInv fm) : managerInv (spawnFirefly fm x y) := by
  obtain ⟨hpair, hbound, hsub, hnodup⟩ := h
  refine ⟨?_, ?_, ?_, ?_⟩
  · rw [keysOf_spawnFirefly, List.pairwise_append]
    refine ⟨hpair, List.pairwise_singleton _ _, ?_⟩
    intro a ha b hb
    rw [List.mem_singleton] at hb
    exact hb ▸ hbound a ha
  · rw [keysOf_spawnFirefly]
    intro k hk
    rcases List.mem_append.1 hk with h2 | h2
    · exact lt_trans (hbound k h2) (by simp [spawnFirefly])
    · rw [List.mem_singleton] at h2
      simp [spawnFirefly, h2]
  · intro k hk
    have : containsKey fm.fireflies k = true := hsub k hk
    simp [spawnFirefly, containsKey_append, this]
  · exact hnodup

theorem SpawnBurst_cons (fm : ManagerState) (x y dx dy : ℚ) (rest : List (ℚ × ℚ)) :
    SpawnBurst fm x y ((dx, dy) :: rest)
      = if MaxFireflies ≤ fm.fireflies.length then fm
        else SpawnBurst (spawnFirefly fm (x + dx) (y + dy)) x y rest := rfl

theorem managerInv_SpawnBurst (x y : ℚ) :
    ∀ (jitter : List (ℚ × ℚ)) (fm : ManagerState),
      managerInv fm → managerInv (SpawnBurst fm x y jitter)
  | [], _, h => h
  | (dx, dy) :: rest, fm, h => by
    rw [SpawnBurst_cons]
    split
    · exact h
    · exact managerInv_SpawnBurst x y rest _ (managerInv_spawnFirefly fm (x + dx) (y + dy) h)

theorem managerInv_setAttractionPoint (fm : ManagerState) (point : Vector2D ℚ)
    (h : managerInv fm) : managerInv (setAttractionPoint fm point) := by
  obtain ⟨hpair, hbound, hsub, hnodup⟩ := h
  have hkeys : keysOf (setAttractionPoint fm point).fireflies = keysOf fm.fireflies := by
    simp [setAttractionPoint, keysOf, List.map_map]
  refine ⟨?_, ?_, ?_, hnodup⟩
  · rw [hkeys]; exact hpair
  · rw [hkeys]; exact hbound
  · intro k hk
    rw [containsKey_iff_mem, hkeys, ← containsKey_iff_mem]
    exact hsub k hk

theorem managerInv_clearAttractionPoint (fm : ManagerState)
    (h : managerInv fm) : managerInv (clearAttractionPoint fm) := by
  obtain ⟨hpair, hbound, hsub, hnodup⟩ := h
  have hkeys : keysOf (clearAttractionPoint fm).fireflies = keysOf fm.fireflies := by
    simp [clearAttractionPoint, keysOf, List.map_map]
  refine ⟨?_, ?_, ?_, hnodup⟩
  · rw [hkeys]; exact hpair
  · rw [hkeys]; exact hbound
  · intro k hk
    rw [containsKey_iff_mem, hkeys, ← containsKey_iff_mem]
    exact hsub k hk

theorem managerInv_applyOp (fm : ManagerState) (op : ManagerOp)
    (h : managerInv fm) : managerInv (applyOp fm op) := by
  cases op with
  | opSpawn x y => exact managerInv_spawnFirefly fm x y h
  | opBurst x y jitter => exact managerInv_SpawnBurst x y jitter fm h
  | opSetAttraction pos => exact managerInv_setAttractionPoint fm pos h
  | opClearAttraction => exact managerInv_clearAttractionPoint fm h
  | opCycleWind => exact h
  | opEmit s =>
    obtain ⟨hpair, hbound, hsub, hnodup⟩ := h
    by_cases hc : containsKey fm.fireflies s.ID = true
    · simp only [applyOp, hc, if_true]
      refine ⟨hpair, hbound, ?_, nodup_keysOf_updateState fm.aggStates s hnodup⟩
      intro k hk
      rw [containsKey_updateState] at hk
      by_cases he : s.ID = k
      · exact he ▸ hc
      · rw [if_neg he] at hk
        exact hsub k hk
    · simp only [applyOp, hc, if_false]
      exact ⟨hpair, hbound, hsub, hnodup⟩

theorem managerInv_applyOps (ops : List ManagerOp) :
    ∀ fm : ManagerState, managerInv fm → managerInv (applyOps fm ops) := by
  induction ops with
  | nil => exact fun fm h => h
  | cons op rest ih =>
    intro fm h
    exact ih (applyOp fm op) (managerInv_applyOp fm op h)

theorem length_spawnFirefly (fm : ManagerState) (x y : ℚ) :
    (spawnFirefly fm x y).fireflies.length = fm.fireflies.length + 1 := by
  simp [spawnFirefly]

theorem length_SpawnBurst_mono (x y : ℚ) :
    ∀ (jitter : List (ℚ × ℚ)) (fm : ManagerState),
      fm.fireflies.length ≤ (SpawnBurst fm x y jitter).fireflies.length
  | [], _ => le_refl _
  | (dx, dy) :: rest, fm => by
    rw [SpawnBurst_cons]
    split
    · exact le_refl _
    · refine le_trans ?_ (length_SpawnBurst_mono x y rest _)
      rw [length_spawnFirefly]
      omega

theorem length_SpawnBurst_cap (x y : ℚ) :
    ∀ (jitter : List (ℚ × ℚ)) (fm : ManagerState),
      fm.fireflies.length ≤ MaxFireflies →
      (SpawnBurst fm x y jitter).fireflies.length ≤ MaxFireflies
  | [], _, h => h
  | (dx, dy) :: rest, fm, h => by
    rw [SpawnBurst_cons]
    split
    · exact h
    · next hlt =>
      refine length_SpawnBurst_cap x y rest _ ?_
      rw [length_spawnFirefly]
      omega

theorem SpawnBurst_at_cap (fm : ManagerState) (x y : ℚ) (jitter : List (ℚ × ℚ))
    (h : MaxFireflies ≤ fm.fireflies.length) : SpawnBurst fm x y jitter = fm := by
  cases jitter with
  | nil => rfl
  | cons hd rest =>
    obtain ⟨dx, dy⟩ := hd
    rw [SpawnBurst_cons, if_pos h]

theorem length_applyOp_mono (fm : ManagerState) (op : ManagerOp) :
    fm.fireflies.length ≤ (applyOp fm op).fireflies.length := by
  cases op with
  | opSpawn x y => rw [applyOp, length_spawnFirefly]; omega
  | opBurst x y jitter => exact length_SpawnBurst_mono x y jitter fm
  | opSetAttraction pos => simp [applyOp, setAttractionPoint]
  | opClearAttraction => simp [applyOp, clearAttractionPoint]
  | opCycleWind => exact le_refl _
  | opEmit s =>
    simp only [applyOp]
    split <;> exact le_refl _

theorem length_applyOps_mono (ops : List ManagerOp) :
    ∀ fm : ManagerState, fm.fireflies.length ≤ (applyOps fm ops).fireflies.length := by
  induction ops with
  | nil => exact fun fm => le_refl _
  | cons op rest ih =>
    intro fm
    exact le_trans (length_applyOp_mono fm op) (ih (applyOp fm op))

theorem keysOf_SpawnBurst_append (x y : ℚ) :
    ∀ (jitter : List (ℚ × ℚ)) (fm : ManagerState),
      ∃ appended, keysOf (SpawnBurst fm x y jitter).fireflies = keysOf fm.fireflies ++ appended
  | [], fm => ⟨[], (List.append_nil _).symm⟩
  | (dx, dy) :: rest, fm => by
    rw [SpawnBurst_cons]
    split
    · exact ⟨[], (List.append_nil _).symm⟩
    · obtain ⟨app, happ⟩ := keysOf_SpawnBurst_append x y rest (spawnFirefly fm (x + dx) (y + dy))
      refine ⟨fm.nextID :: app, ?_⟩
      rw [happ, keysOf_spawnFirefly]
      simp

theorem keysOf_applyOp_append (fm : ManagerState) (op : ManagerOp) :
    ∃ appended, keysOf (applyOp fm op).fireflies = keysOf fm.fireflies ++ appended := by
  cases op with
  | opSpawn x y => exact ⟨[fm.nextID], keysOf_spawnFirefly fm x y⟩
  | opBurst x y jitter => exact keysOf_SpawnBurst_append x y jitter fm
  | opSetAttraction pos =>
    exact ⟨[], by
      rw [List.append_nil]
      simp [applyOp, setAttractionPoint, keysOf, List.map_map]⟩
  | opClearAttraction =>
    exact ⟨[], by
      rw [List.append_nil]
      simp [applyOp, clearAttractionPoint, keysOf, List.map_map]⟩
  | opCycleWind => exact ⟨[], (List.append_nil _).symm⟩
  | opEmit s =>
    refine ⟨[], ?_⟩
    rw [List.append_nil]
    simp only [applyOp]
    split <;> rfl

theorem agg_le_registry (fm : ManagerState) (h : managerInv fm) :
    fm.aggStates.length ≤ fm.fireflies.length := by
  obtain ⟨_, _, hsub, hnodup⟩ := h
  have hsubset : keysOf fm.aggStates ⊆ keysOf fm.fireflies := by
    intro k hk
    exact (containsKey_iff_mem _ _).1 (hsub k ((containsKey_iff_mem _ _).2 hk))
  have hlen := (hnodup.subperm hsubset).length_le
  simpa [keysOf] using hlen

theorem cap_run :
    ∀ (ops : List ManagerOp) (fm : ManagerState),
      managerInv fm → fm.fireflies.length ≤ MaxFireflies →
      (∀ op ∈ ops, ∀ x y : ℚ, op ≠ ManagerOp.opSpawn x y) →
      managerInv (applyOps fm ops) ∧ (applyOps fm ops).fireflies.length ≤ MaxFireflies
  | [], fm, hinv, hlen, _ => ⟨hinv, hlen⟩
  | op :: rest, fm, hinv, hlen, hns => by
    have hstep : (applyOp fm op).fireflies.length ≤ MaxFireflies := by
      cases op with
      | opSpawn x y => exact absurd rfl (hns _ (List.mem_cons_self _ _) x y)
      | opBurst x y jitter => exact length_SpawnBurst_cap x y jitter fm hlen
      | opSetAttraction pos => simpa [applyOp, setAttractionPoint] using hlen
      | opClearAttraction => simpa [applyOp, clearAttractionPoint] using hlen
      | opCycleWind => exact hlen
      | opEmit s =>
        simp only [applyOp]
        split <;> exact hlen
    exact cap_run rest (applyOp fm op) (managerInv_applyOp fm op hinv) hstep
      (fun o ho => hns o (List.mem_cons_of_mem _ ho))

/-- C2 (amended). For every run from the initial manager state whose steps
avoid the cap-free `spawnFirefly` path — i.e. any sequence of `SpawnBurst`
calls, attraction/wind commands and agent emissions — the live agent count
(`GetFireflyCount`, the aggregator's entry count) never exceeds
`MaxFireflies`: `SpawnBurst` refuses to spawn past the cap. -/
theorem population_cap_amended (ops : List ManagerOp)
    (h : ∀ op ∈ ops, ∀ x y : ℚ, op ≠ ManagerOp.opSpawn x y) :
    GetFireflyCount (applyOps initManager ops) ≤ MaxFireflies := by
  obtain ⟨hinv, hlen⟩ := cap_run ops initManager managerInv_init (by simp [initManager]) h
  exact le_trans (agg_le_registry _ hinv) hlen

/-- Witness for C2 (amended): a single burst of one agent from the initial
state keeps the live count within the cap. -/
theorem population_cap_amended_witness :
    GetFireflyCount (applyOps initManager [ManagerOp.opBurst 0 0 [(1, 2)]]) ≤ MaxFireflies :=
  population_cap_amended [ManagerOp.opBurst 0 0 [(1, 2)]] (by
    intro op hop x y
    rw [List.mem_singleton] at hop
    subst hop
    intro he
    cases he)

set_option maxRecDepth 100000 in
/-- Counterexample to C2 as stated: `spawnFirefly` performs no population
cap check, so a run of 101 spawn commands (with each spawned agent then
emitting one alive state consumed by the aggregator) drives the live agent
count to 101, exceeding `MaxFireflies = 100`. -/
theorem population_cap_counterexample :
    ¬ (GetFireflyCount (applyOps initManager
        (List.replicate 101 (ManagerOp.opSpawn 0 0)
          ++ (List.range 101).map
              (fun i => ManagerOp.opEmit ⟨(i : Int) + 1, ⟨0, 0⟩, 0, true⟩)))
        ≤ MaxFireflies) := by
  decide

/-- C3. Processing the FIFO command sequence [set-attraction(10,10),
clear-attraction, set-attraction(20,20)] from any manager state leaves the
shared attraction point at (20,20) — neither (10,10) nor cleared — and every
currently registered agent's attraction reference at (20,20). -/
theorem command_ordering (fm : ManagerState) :
    (processCommands fm
        [Command.CommandSetAttraction ⟨10, 10⟩, Command.CommandClearAttraction,
         Command.CommandSetAttraction ⟨20, 20⟩]).attractionPt = some ⟨20, 20⟩
    ∧ ∀ p ∈ (processCommands fm
        [Command.CommandSetAttraction ⟨10, 10⟩, Command.CommandClearAttraction,
         Command.CommandSetAttraction ⟨20, 20⟩]).fireflies,
        p.2.attractionPoint = some ⟨20, 20⟩ := by
  constructor
  · rfl
  · intro p hp
    simp only [processCommands, List.foldl, processCommand, setAttractionPoint,
      clearAttractionPoint, List.map_map] at hp
    obtain ⟨q, hq, rfl⟩ := List.mem_map.1 hp
    rfl

/-- Witness for C3: from the initial state with one spawned agent, the final
attraction point is (20,20) and that agent's reference is (20,20). -/
theorem command_ordering_witness :
    (processCommands (spawnFirefly initManager 5 5)
        [Command.CommandSetAttraction ⟨10, 10⟩, Command.CommandClearAttraction,
         Command.CommandSetAttraction ⟨20, 20⟩]).attractionPt = some ⟨20, 20⟩
    ∧ (((1 : Int), (⟨1, ⟨5, 5⟩, some ⟨20, 20⟩⟩ : ManagedFirefly)) :
          Int × ManagedFirefly).2.attractionPoint = some ⟨20, 20⟩ :=
  ⟨(command_ordering (spawnFirefly initManager 5 5)).1,
   (command_ordering (spawnFirefly initManager 5 5)).2 _ (by decide)⟩

/-- C4. Over any run from the initial state, the ids in the registry (which
records every agent ever spawned, in spawn order) are strictly increasing —
hence pairwise distinct, never shared, never reused — and all stay below the
id counter `nextID`, so future assignments are fresh as well. -/
theorem id_uniqueness (ops : List ManagerOp) :
    List.Pairwise (· < ·) (keysOf (applyOps initManager ops).fireflies)
    ∧ (keysOf (applyOps initManager ops).fireflies).Nodup
    ∧ ∀ k ∈ keysOf (applyOps initManager ops).fireflies,
        k < (applyOps initManager ops).nextID := by
  obtain ⟨hpair, hbound, _, _⟩ := managerInv_applyOps ops initManager managerInv_init
  exact ⟨hpair, hpair.imp ne_of_lt, hbound⟩

/-- Witness for C4: after one spawn the registry holds exactly id 1, and it
is below the advanced counter. -/
theorem id_uniqueness_witness :
    (1 : Int) < (applyOps initManager [ManagerOp.opSpawn 0 0]).nextID :=
  (id_uniqueness [ManagerOp.opSpawn 0 0]).2.2 1 (by decide)

/-- C9. No manager operation removes a registry entry: every step appends to
the key list (registry size is monotonically non-decreasing over a run);
`SpawnBurst`'s capacity check compares the registry size — all agents ever
spawned — so it refuses at `MaxFireflies` registered agents regardless of
the live count; and `GetFireflyCount` reports the aggregator's live entry
count instead. -/
theorem registry_never_shrinks :
    (∀ (fm : ManagerState) (ops : List ManagerOp),
        fm.fireflies.length ≤ (applyOps fm ops).fireflies.length)
    ∧ (∀ (fm : ManagerState) (op : ManagerOp),
        ∃ appended, keysOf (applyOp fm op).fireflies = keysOf fm.fireflies ++ appended)
    ∧ (∀ (fm : ManagerState) (x y : ℚ) (jitter : List (ℚ × ℚ)),
        MaxFireflies ≤ fm.fireflies.length → SpawnBurst fm x y jitter = fm)
    ∧ (∀ fm : ManagerState, GetFireflyCount fm = fm.aggStates.length) :=
  ⟨fun fm ops => length_applyOps_mono ops fm,
   keysOf_applyOp_append,
   SpawnBurst_at_cap,
   fun _ => rfl⟩

set_option maxRecDepth 100000 in
/-- Witness for C9: with 100 agents already registered (even though none is
live), a burst is refused outright. -/
theorem registry_never_shrinks_witness :
    SpawnBurst (applyOps initManager (List.replicate 100 (ManagerOp.opSpawn 0 0))) 0 0 [(0, 0)]
      = applyOps initManager (List.replicate 100 (ManagerOp.opSpawn 0 0)) :=
  registry_never_shrinks.2.2.1 _ 0 0 [(0, 0)] (by decide)

/-! ### Worker pool and wind theorems -/

/-- C7. A panicking task is swallowed by `processJob`: the returned result
carries the job's id with a nil error and no output — indistinguishable from
a task that returned the nil interface — and the worker loop continues with
the remaining jobs exactly as for any other result. -/
theorem worker_fault_isolation :
    ∀ (id payload : Int),
      processJob ⟨id, TaskOutcome.panics payload⟩ = ⟨id, none, none⟩
      ∧ processJob ⟨id, TaskOutcome.panics payload⟩ = processJob ⟨id, TaskOutcome.returns none⟩
      ∧ ∀ (resultCap : Nat) (results : List JobResult) (rest : List Job),
          worker resultCap results (⟨id, TaskOutcome.panics payload⟩ :: rest)
            = worker resultCap
                (if results.length < resultCap then results ++ [⟨id, none, none⟩] else results)
                rest := by
  intro id payload
  exact ⟨rfl, rfl, fun _ _ _ => rfl⟩

/-- C8 (amended). `Submit` never blocks — it is a total, immediate
operation: it returns false leaving the pool unchanged whenever the job
queue is full (the job is discarded), and it returns true exactly when the
job was appended to the job queue, leaving the pool unchanged on every false
return. When cancellation has been signalled it returns false provided the
cancellation case wins the select race; with room in the queue the send case
can win instead, so a cancelled pool can still enqueue and return true.
Without cancellation, a queue with room always accepts the job. -/
theorem submit_nonblocking (wp : PoolState) (job : Job) (pick : Bool) :
    (wp.jobCap ≤ wp.jobs.length → Submit wp job pick = (false, wp))
    ∧ (wp.done = true → pick = true → Submit wp job pick = (false, wp))
    ∧ (wp.done = false → wp.jobs.length < wp.jobCap →
        Submit wp job pick = (true, { wp with jobs := wp.jobs ++ [job] }))
    ∧ ((Submit wp job pick).1 = true ↔ (Submit wp job pick).2.jobs = wp.jobs ++ [job])
    ∧ ((Submit wp job pick).1 = false → (Submit wp job pick).2 = wp) := by
  refine ⟨?_, ?_, ?_, ?_, ?_⟩
  · intro hfull
    cases hd : wp.done <;> simp [Submit, hd, not_lt.mpr hfull]
  · intro hdone hpick
    by_cases hs : wp.jobs.length < wp.jobCap <;> simp [Submit, hdone, hpick, hs]
  · intro hdone hroom
    simp [Submit, hdone, hroom]
  · by_cases hd : wp.done = true
    · by_cases hs : wp.jobs.length < wp.jobCap
      · cases hp : pick
        · have heq : Submit wp job false = (true, { wp with jobs := wp.jobs ++ [job] }) := by
            simp [Submit, hd, hs]
          rw [heq]
          simp
        · have heq : Submit wp job true = (false, wp) := by simp [Submit, hd, hs]
          rw [heq]
          constructor
          · intro h
            exact absurd h (by simp)
          · intro h
            have := congrArg List.length h
            simp at this
      · have heq : Submit wp job pick = (false, wp) := by simp [Submit, hd, hs]
        rw [heq]
        constructor
        · intro h
          exact absurd h (by simp)
        · intro h
          have := congrArg List.length h
          simp at this
    · by_cases hs : wp.jobs.length < wp.jobCap
      · have heq : Submit wp job pick = (true, { wp with jobs := wp.jobs ++ [job] }) := by
          simp [Submit, hd, hs]
        rw [heq]
        simp
      · have heq : Submit wp job pick = (false, wp) := by simp [Submit, hd, hs]
        rw [heq]
        constructor
        · intro h
          exact absurd h (by simp)
        · intro h
          have := congrArg List.length h
          simp at this
  · by_cases hd : wp.done = true <;> by_cases hs : wp.jobs.length < wp.jobCap <;>
      cases hp : pick <;> simp [Submit, hd, hs, hp]

/-- Witness for C8 (amended): a cancelled pool whose zero-capacity queue is
full rejects a submission unchanged. -/
theorem submit_nonblocking_witness :
    Submit ⟨true, [], 0⟩ ⟨0, TaskOutcome.returns none⟩ true = (false, ⟨true, [], 0⟩) :=
  (submit_nonblocking ⟨true, [], 0⟩ ⟨0, TaskOutcome.returns none⟩ true).1 (by decide)

/-- Counterexample to C8 as stated: with cancellation signalled and room in
the queue, both select cases are ready and Go picks between them uniformly;
when the pick favours the send, `Submit` enqueues the job and returns true
even though the pool has been cancelled. -/
theorem submit_select_counterexample :
    (Submit ⟨true, [], 1⟩ ⟨0, TaskOutcome.returns none⟩ false).1 = true
    ∧ (Submit ⟨true, [], 1⟩ ⟨0, TaskOutcome.returns none⟩ false).2.jobs
        = [⟨0, TaskOutcome.returns none⟩] :=
  ⟨rfl, rfl⟩

theorem cycleDirection_eq (w : Wind) :
    CycleDirection w = SetDirection w (nextCycleDirection w.direction) := rfl

theorem direction_CycleDirection (w : Wind) :
    (CycleDirection w).direction = nextCycleDirection w.direction := rfl

theorem nextCycleDirection_ne_none :
    ∀ d : WindDirection, nextCycleDirection d ≠ WindDirection.WindNone := by
  intro d
  cases d <;> decide

/-- C10. `CycleDirection` never leaves the wind at `WindNone`: each compass
direction advances one step in the fixed clockwise order North → NorthEast →
East → SouthEast → South → SouthWest → West → NorthWest → North, while
`WindNone` (the only representable value outside the table) goes to
`WindNorth`; in every case the force vector is refreshed through
`SetDirection`. -/
theorem cycle_direction_spec (w : Wind) :
    (CycleDirection w).direction ≠ WindDirection.WindNone
    ∧ (w.direction = .WindNorth → CycleDirection w = SetDirection w .WindNorthEast)
    ∧ (w.direction = .WindNorthEast → CycleDirection w = SetDirection w .WindEast)
    ∧ (w.direction = .WindEast → CycleDirection w = SetDirection w .WindSouthEast)
    ∧ (w.direction = .WindSouthEast → CycleDirection w = SetDirection w .WindSouth)
    ∧ (w.direction = .WindSouth → CycleDirection w = SetDirection w .WindSouthWest)
    ∧ (w.direction = .WindSouthWest → CycleDirection w = SetDirection w .WindWest)
    ∧ (w.direction = .WindWest → CycleDirection w = SetDirection w .WindNorthWest)
    ∧ (w.direction = .WindNorthWest → CycleDirection w = SetDirection w .WindNorth)
    ∧ (w.direction = .WindNone → CycleDirection w = SetDirection w .WindNorth) := by
  refine ⟨?_, ?_, ?_, ?_, ?_, ?_, ?_, ?_, ?_, ?_⟩
  · rw [direction_CycleDirection]
    exact nextCycleDirection_ne_none w.direction
  all_goals intro h
  all_goals rw [cycleDirection_eq w, h]
  all_goals rfl

/-- Witness for C10: from a no-wind state the cycle lands on North. -/
theorem cycle_direction_spec_witness :
    CycleDirection ⟨WindDirection.WindNone, ⟨0, 0⟩, 1⟩
      = SetDirection ⟨WindDirection.WindNone, ⟨0, 0⟩, 1⟩ WindDirection.WindNorth :=
  (cycle_direction_spec ⟨WindDirection.WindNone, ⟨0, 0⟩, 1⟩).2.2.2.2.2.2.2.2.2 rfl

/-! ### Agent physics theorems -/

theorem Magnitude_nonneg (v : Vector2D ℝ) : 0 ≤ Magnitude v :=
  Real.sqrt_nonneg _

theorem Magnitude_mul (v : Vector2D ℝ) (c : ℝ) :
    Magnitude (v.mul c) = |c| * Magnitude v := by
  show Real.sqrt (v.X * c * (v.X * c) + v.Y * c * (v.Y * c))
      = |c| * Real.sqrt (v.X * v.X + v.Y * v.Y)
  have h : v.X * c * (v.X * c) + v.Y * c * (v.Y * c)
      = c ^ 2 * (v.X * v.X + v.Y * v.Y) := by ring
  rw [h, Real.sqrt_mul (sq_nonneg c), Real.sqrt_sq_eq_abs]

theorem Normalize_eq_mul (v : Vector2D ℝ) (h : Magnitude v ≠ 0) :
    Normalize v = v.mul (Magnitude v)⁻¹ := by
  show (if Magnitude v = 0 then (⟨0, 0⟩ : Vector2D ℝ)
        else ⟨v.X / Magnitude v, v.Y / Magnitude v⟩) = v.mul (Magnitude v)⁻¹
  rw [if_neg h]
  show (⟨v.X / Magnitude v, v.Y / Magnitude v⟩ : Vector2D ℝ)
      = ⟨v.X * (Magnitude v)⁻¹, v.Y * (Magnitude v)⁻¹⟩
  rw [div_eq_mul_inv, div_eq_mul_inv]

theorem Magnitude_Normalize (v : Vector2D ℝ) (h : Magnitude v ≠ 0) :
    Magnitude (Normalize v) = 1 := by
  rw [Normalize_eq_mul v h, Magnitude_mul]
  have hpos : 0 < Magnitude v := lt_of_le_of_ne (Magnitude_nonneg v) (Ne.symm h)
  rw [abs_of_pos (inv_pos.mpr hpos)]
  field_simp

theorem Magnitude_sub_distance (a b : Vector2D ℝ) :
    Magnitude (b.sub a) = Distance a b := by
  show Real.sqrt ((b.X - a.X) * (b.X - a.X) + (b.Y - a.Y) * (b.Y - a.Y))
      = Real.sqrt ((a.X - b.X) * (a.X - b.X) + (a.Y - b.Y) * (a.Y - b.Y))
  congr 1
  ring

theorem mul_mul_vec (v : Vector2D ℝ) (a b : ℝ) :
    (v.mul a).mul b = v.mul (a * b) := by
  show (⟨v.X * a * b, v.Y * a * b⟩ : Vector2D ℝ) = ⟨v.X * (a * b), v.Y * (a * b)⟩
  rw [mul_assoc, mul_assoc]

/-- C6. The lantern-induced force is zero at or beyond the influence radius
and at distance ≤ 1; strictly inside the annulus it points toward the
lantern with magnitude `LanternInfluenceForce × (Radius − d)/Radius` — in
particular it vanishes at exactly `d = Radius` and has magnitude
`LanternInfluenceForce × 0.5` at `d = Radius/2`. The one-lantern
`applyLanternAttraction` adds exactly this force to the velocity. -/
theorem lantern_falloff (f : FireflyCore) (lantern : Lantern) :
    (applyLanternAttraction f [lantern]
        = { f with velocity := f.velocity.add (lanternForce f.position lantern) })
    ∧ (lantern.Radius ≤ Distance f.position lantern.Position
        ∨ Distance f.position lantern.Position ≤ 1 →
        lanternForce f.position lantern = ⟨0, 0⟩)
    ∧ (Distance f.position lantern.Position = lantern.Radius →
        lanternForce f.position lantern = ⟨0, 0⟩)
    ∧ (1 < Distance f.position lantern.Position →
        Distance f.position lantern.Position < lantern.Radius →
        Magnitude (lanternForce f.position lantern)
          = LanternInfluenceForce
              * ((lantern.Radius - Distance f.position lantern.Position) / lantern.Radius)
        ∧ ∃ c : ℝ, 0 < c ∧ lanternForce f.position lantern
            = (lantern.Position.sub f.position).mul c)
    ∧ (Distance f.position lantern.Position = lantern.Radius / 2 →
        1 < Distance f.position lantern.Position →
        Magnitude (lanternForce f.position lantern) = LanternInfluenceForce * 0.5) := by
  have hzero : lantern.Radius ≤ Distance f.position lantern.Position
      ∨ Distance f.position lantern.Position ≤ 1 →
      lanternForce f.position lantern = ⟨0, 0⟩ := by
    intro h
    have hcond : ¬ (Distance f.position lantern.Position < lantern.Radius
        ∧ Distance f.position lantern.Position > 1) := by
      rcases h with h | h
      · exact fun hc => absurd hc.1 (not_lt.mpr h)
      · exact fun hc => absurd hc.2 (not_lt.mpr h)
    simp only [lanternForce]
    rw [if_neg hcond]
  have hin : 1 < Distance f.position lantern.Position →
      Distance f.position lantern.Position < lantern.Radius →
      Magnitude (lanternForce f.position lantern)
        = LanternInfluenceForce
            * ((lantern.Radius - Distance f.position lantern.Position) / lantern.Radius)
      ∧ ∃ c : ℝ, 0 < c ∧ lanternForce f.position lantern
          = (lantern.Position.sub f.position).mul c := by
    intro h1 h2
    have hcond : Distance f.position lantern.Position < lantern.Radius
        ∧ Distance f.position lantern.Position > 1 := ⟨h2, h1⟩
    have hforce : lanternForce f.position lantern
        = (Normalize (lantern.Position.sub f.position)).mul
            (LanternInfluenceForce
              * ((lantern.Radius - Distance f.position lantern.Position) / lantern.Radius)) := by
      simp only [lanternForce]
      rw [if_pos hcond]
    have hmagsub : Magnitude (lantern.Position.sub f.position)
        = Distance f.position lantern.Position :=
      Magnitude_sub_distance f.position lantern.Position
    have hdpos : (0 : ℝ) < Distance f.position lantern.Position := lt_trans one_pos h1
    have hne : Magnitude (lantern.Position.sub f.position) ≠ 0 := by
      rw [hmagsub]
      exact ne_of_gt hdpos
    have hFpos : (0 : ℝ) < LanternInfluenceForce := by norm_num [LanternInfluenceForce]
    have hRpos : (0 : ℝ) < lantern.Radius := lt_trans hdpos h2
    have hstrength : (0 : ℝ)
        < (lantern.Radius - Distance f.position lantern.Position) / lantern.Radius :=
      div_pos (by linarith) hRpos
    constructor
    · rw [hforce, Magnitude_mul, Magnitude_Normalize _ hne, mul_one]
      exact abs_of_pos (mul_pos hFpos hstrength)
    · refine ⟨(Magnitude (lantern.Position.sub f.position))⁻¹
        * (LanternInfluenceForce
            * ((lantern.Radius - Distance f.position lantern.Position) / lantern.Radius)),
        ?_, ?_⟩
      · apply mul_pos
        · rw [hmagsub]
          exact inv_pos.mpr hdpos
        · exact mul_pos hFpos hstrength
      · rw [hforce, Normalize_eq_mul _ hne, mul_mul_vec]
  refine ⟨rfl, hzero, fun h => hzero (Or.inl (le_of_eq h.symm)), hin, ?_⟩
  intro h2 h1
  have hRpos : (0 : ℝ) < lantern.Radius := by
    have hhalf : (1 : ℝ) < lantern.Radius / 2 := h2 ▸ h1
    linarith
  have hlt : Distance f.position lantern.Position < lantern.Radius := by
    rw [h2]
    linarith
  obtain ⟨hmag, -⟩ := hin h1 hlt
  rw [hmag, h2]
  have hR0 : lantern.Radius ≠ 0 := ne_of_gt hRpos
  have hhalf : (lantern.Radius - lantern.Radius / 2) / lantern.Radius = 0.5 := by
    field_simp
    ring
  rw [hhalf]

/-- Witness for C6: an agent at the origin and a lantern at (60, 0) — half
the 120-unit radius away — feel a force of magnitude
`LanternInfluenceForce × 0.5`. -/
theorem lantern_falloff_witness :
    Magnitude (lanternForce ⟨0, 0⟩ (NewLantern 60 0)) = LanternInfluenceForce * 0.5 := by
  have hpos : (NewLantern 60 0).Position = (⟨60, 0⟩ : Vector2D ℝ) := rfl
  have hdist : Distance (⟨0, 0⟩ : Vector2D ℝ) (⟨60, 0⟩ : Vector2D ℝ) = 60 := by
    show Real.sqrt (((0 : ℝ) - 60) * ((0 : ℝ) - 60) + ((0 : ℝ) - 0) * ((0 : ℝ) - 0)) = 60
    have h36 : ((0 : ℝ) - 60) * ((0 : ℝ) - 60) + ((0 : ℝ) - 0) * ((0 : ℝ) - 0) = 60 ^ 2 := by
      norm_num
    rw [h36, Real.sqrt_sq (by norm_num : (0 : ℝ) ≤ 60)]
  have hrad : (NewLantern 60 0).Radius = 120 := by
    show LanternRadius = 120
    norm_num [LanternRadius]
  apply ((lantern_falloff ⟨⟨0, 0⟩, ⟨0, 0⟩⟩ (NewLantern 60 0)).2.2.2.2)
  · show Distance (⟨0, 0⟩ : Vector2D ℝ) (NewLantern 60 0).Position
      = (NewLantern 60 0).Radius / 2
    rw [hpos, hdist, hrad]
    norm_num
  · show 1 < Distance (⟨0, 0⟩ : Vector2D ℝ) (NewLantern 60 0).Position
    rw [hpos, hdist]
    norm_num

end FireflyGarden
